import Mathlib

/-!
Verification of the regime-scoring core of the repository
(`service/RegimeService.py` and the indicator services it uses).

Shallow embedding conventions:
* Python `float` arithmetic is modelled exactly: by `ℚ` in the indicator
  services whose formulas are purely rational (MA, RSI, the DIF/DEA cross
  machine), and by `ℝ` wherever a square root occurs (rolling standard
  deviation in BOLL, the Z-score and Pearson steps of the combination
  engine).
* `datatime` values are modelled as natural numbers; only their ordering
  and equality are ever used by the code.
* pandas `Series.std` is the sample standard deviation (`ddof = 1`); on a
  single observation it yields `NaN`, and every use in the source guards it
  with a comparison that is false for `NaN`.  The embedding divides by
  `n - 1` (real subtraction, giving division by `0 = 0` for `n = 1`), which
  lands in the same guarded branch.
* Fallible code (a Python `KeyError` / `ValueError`) is embedded with
  `Option`: `none` is the raising run.
-/

namespace Regime

/-- Mean of a list of reals (pandas `Series.mean`). -/
noncomputable def mean (l : List ℝ) : ℝ := l.sum / l.length

/-- Sample variance with `ddof = 1` (pandas `Series.var`).  For a singleton
list the denominator is `0` and the convention `x / 0 = 0` applies; the
numerator is `0` there as well, matching the fact that the source only ever
consumes this through a `std > 1e-8` test that `NaN` also fails. -/
noncomputable def sampleVar (l : List ℝ) : ℝ :=
  ((l.map (fun x => (x - mean l) ^ 2)).sum) / ((l.length : ℝ) - 1)

/-- Sample standard deviation (pandas `Series.std`, `ddof = 1`). -/
noncomputable def sampleStd (l : List ℝ) : ℝ := Real.sqrt (sampleVar l)

/-- `FactorResult` of `RegimeService.py`: one scored opinion of one factor at
one timestamp, with the weight captured at production time. -/
structure FactorResult where
  factor_name : String
  datatime : ℕ
  value : ℝ
  weight : ℝ

/-- One row of the output of `RegimeService.combine_factors`. -/
structure CompositeScore where
  datatime : ℕ
  composite_score : ℝ
  factor_count : ℕ

/-- The Z-score normalisation `combine_factors` applies to one pooled row:
the row's factor history is every pooled row with the same `factor_name`;
`(value - mean) / std` when `std > 1e-8`, else `0`. -/
noncomputable def normalizedValue (pool : List FactorResult) (fr : FactorResult) : ℝ :=
  let hist := (pool.filter (fun r => r.factor_name = fr.factor_name)).map (·.value)
  if sampleStd hist > 1e-8 then (fr.value - mean hist) / sampleStd hist else 0

/-- The ascending list of distinct timestamps of a pooled collection: the
keys of the pandas `groupby('datatime')` (which sorts keys ascending). -/
def sortedTimes (pool : List FactorResult) : List ℕ :=
  List.insertionSort (· ≤ ·) (pool.map (·.datatime)).dedup

/-- Body of the `groupby('datatime')` loop of `combine_factors`: the
composite row of one timestamp group, built from a pooled collection whose
rows carry their normalized value. -/
noncomputable def combineRow (pool : List FactorResult) (t : ℕ) : CompositeScore :=
  { datatime := t
    composite_score :=
      ((pool.filter (fun r => r.datatime = t)).map
          (fun r => normalizedValue pool r * r.weight)).sum /
        ((pool.filter (fun r => r.datatime = t)).map (·.weight)).sum
    factor_count := (pool.filter (fun r => r.datatime = t)).length }

/-- `RegimeService.combine_factors`.  `[]` maps to `some []` (the early
return); a non-empty argument whose lists are all empty builds a
column-less DataFrame and the `df['factor_name']` lookup raises `KeyError`,
embedded as `none`.  Otherwise: per-factor Z-score over the pooled history,
then per-timestamp weighted mean, keys ascending. -/
noncomputable def combine_factors (frl : List (List FactorResult)) :
    Option (List CompositeScore) :=
  if frl.isEmpty then some []
  else if frl.flatten.isEmpty then none
  else some ((sortedTimes frl.flatten).map (combineRow frl.flatten))

/-- Modelled from the spec wording of the combination step: the Z-score of a
value over a factor history, `0` for a degenerate history (`std ≤ 1e-8`). -/
noncomputable def zscoreSpec (hist : List ℝ) (v : ℝ) : ℝ :=
  if sampleStd hist ≤ 1e-8 then 0 else (v - mean hist) / sampleStd hist

/-- Composite-score projection of a `combine_factors` run (empty on the
raising run). -/
noncomputable def scoresOf (o : Option (List CompositeScore)) : List ℝ :=
  (o.getD []).map (·.composite_score)

lemma normalizedValue_eq_zscoreSpec (pool : List FactorResult) (fr : FactorResult) :
    normalizedValue pool fr =
      zscoreSpec ((pool.filter (fun r => r.factor_name = fr.factor_name)).map (·.value))
        fr.value := by
  unfold normalizedValue zscoreSpec
  rcases le_or_lt (sampleStd ((pool.filter
      (fun r => r.factor_name = fr.factor_name)).map (·.value))) 1e-8 with h | h
  · rw [if_neg (by exact not_lt.mpr h), if_pos h]
  · rw [if_pos h, if_neg (by exact not_le.mpr h)]

/-- C10: `combine_factors []` is the early-return empty list; a non-empty
argument whose factor lists are all empty reaches the `df['factor_name']`
lookup of a column-less DataFrame and raises (`none`): the function is not
total over no-data inputs. -/
theorem combine_factors_empty_vs_all_empty :
    combine_factors [] = some [] ∧
    ∀ frl : List (List FactorResult), frl ≠ [] → frl.flatten = [] →
      combine_factors frl = none := by
  constructor
  · simp [combine_factors]
  · intro frl h1 h2
    have hfrl : frl.isEmpty = false := by simpa [List.isEmpty_iff] using h1
    simp [combine_factors, hfrl, h2]

theorem combine_factors_empty_vs_all_empty_witness :
    ([[]] : List (List FactorResult)) ≠ [] ∧
      ([[]] : List (List FactorResult)).flatten = [] ∧
      combine_factors [[]] = none :=
  ⟨by simp, by simp,
    combine_factors_empty_vs_all_empty.2 [[]] (by simp) (by simp)⟩

lemma combine_factors_eq_some (frl : List (List FactorResult))
    (hne : frl.flatten ≠ []) :
    combine_factors frl =
      some ((sortedTimes frl.flatten).map (combineRow frl.flatten)) := by
  have hfrl : frl.isEmpty = false := by
    rcases frl with _ | ⟨a, l⟩
    · simp at hne
    · rfl
  have hflat : frl.flatten.isEmpty = false := by simpa [List.isEmpty_iff] using hne
  simp [combine_factors, hfrl, hflat]

lemma sortedTimes_sorted_lt (pool : List FactorResult) :
    (sortedTimes pool).Sorted (· < ·) := by
  have h1 : (sortedTimes pool).Sorted (· ≤ ·) :=
    List.sorted_insertionSort (· ≤ ·) _
  have h2 : (sortedTimes pool).Nodup :=
    ((List.perm_insertionSort (· ≤ ·) _).nodup_iff).2 (List.nodup_dedup _)
  exact h1.lt_of_le h2

lemma mem_sortedTimes (pool : List FactorResult) (t : ℕ) :
    t ∈ sortedTimes pool ↔ t ∈ pool.map (·.datatime) :=
  ((List.perm_insertionSort (· ≤ ·) _).mem_iff).trans (List.mem_dedup)

lemma datatimes_of_combine (frl : List (List FactorResult)) :
    (((sortedTimes frl.flatten).map (combineRow frl.flatten)).map (·.datatime))
      = sortedTimes frl.flatten := by
  rw [List.map_map]
  have h : ((fun x : CompositeScore => x.datatime) ∘ combineRow frl.flatten) =
      fun t => t := rfl
  rw [h]
  exact List.map_id' _

/-- C1: on a non-empty pooled collection, every returned composite row is
the weighted mean `Σ(normalized · weight) / Σ(weight)` over its timestamp
group, where each row is Z-scored against its factor's full pooled history
(`0` when that history's sample std is `≤ 1e-8`), and `factor_count` is the
group size.  Precondition as claimed: every occurring group has nonzero
weight sum. -/
theorem combine_factors_composite_formula (frl : List (List FactorResult))
    (hne : frl.flatten ≠ [])
    (hw : ∀ t ∈ frl.flatten.map (·.datatime),
      ((frl.flatten.filter (fun r => r.datatime = t)).map (·.weight)).sum ≠ 0) :
    ∃ out, combine_factors frl = some out ∧
      ∀ cs ∈ out,
        cs.composite_score =
          ((frl.flatten.filter (fun r => r.datatime = cs.datatime)).map
              (fun r =>
                zscoreSpec ((frl.flatten.filter
                    (fun x => x.factor_name = r.factor_name)).map (·.value)) r.value
                  * r.weight)).sum /
            ((frl.flatten.filter (fun r => r.datatime = cs.datatime)).map (·.weight)).sum ∧
        cs.factor_count = (frl.flatten.filter (fun r => r.datatime = cs.datatime)).length := by
  refine ⟨_, combine_factors_eq_some frl hne, ?_⟩
  intro cs hcs
  obtain ⟨t, ht, rfl⟩ := List.mem_map.1 hcs
  refine ⟨?_, rfl⟩
  simp only [combineRow]
  congr 1
  exact congrArg List.sum
    (List.map_congr_left (fun r _ => by rw [normalizedValue_eq_zscoreSpec]))

/-- Concrete one-factor input used by witnesses: factor `"a"` with values
`0, 1, 2` at timestamps `0, 1, 2`, weight `1`. -/
noncomputable def wFrl1 : List (List FactorResult) :=
  [[⟨"a", 0, 0, 1⟩, ⟨"a", 1, 1, 1⟩, ⟨"a", 2, 2, 1⟩]]

theorem combine_factors_composite_formula_witness :
    (wFrl1.flatten ≠ [] ∧
      ∀ t ∈ wFrl1.flatten.map (·.datatime),
        ((wFrl1.flatten.filter (fun r => r.datatime = t)).map (·.weight)).sum ≠ 0) ∧
    (∃ out, combine_factors wFrl1 = some out ∧
      ∀ cs ∈ out,
        cs.composite_score =
          ((wFrl1.flatten.filter (fun r => r.datatime = cs.datatime)).map
              (fun r =>
                zscoreSpec ((wFrl1.flatten.filter
                    (fun x => x.factor_name = r.factor_name)).map (·.value)) r.value
                  * r.weight)).sum /
            ((wFrl1.flatten.filter (fun r => r.datatime = cs.datatime)).map (·.weight)).sum ∧
        cs.factor_count = (wFrl1.flatten.filter (fun r => r.datatime = cs.datatime)).length) :=
  ⟨⟨by simp [wFrl1], by
      intro t ht
      simp only [wFrl1, List.flatten, List.map_cons, List.map_nil, List.append_nil,
        List.mem_cons, List.not_mem_nil, or_false] at ht
      rcases ht with rfl | rfl | rfl <;> norm_num [wFrl1, List.filter]⟩,
    combine_factors_composite_formula wFrl1 (by simp [wFrl1]) (by
      intro t ht
      simp only [wFrl1, List.flatten, List.map_cons, List.map_nil, List.append_nil,
        List.mem_cons, List.not_mem_nil, or_false] at ht
      rcases ht with rfl | rfl | rfl <;> norm_num [wFrl1, List.filter])⟩

/-- C5: `combine_factors` on a non-empty pool returns one row per distinct
pooled timestamp, in strictly ascending timestamp order, and a timestamp
carried by exactly one pooled row yields `factor_count = 1` with a score
computed from that single row. -/
theorem combine_factors_output_shape (frl : List (List FactorResult))
    (hne : frl.flatten ≠ []) :
    ∃ out, combine_factors frl = some out ∧
      (out.map (·.datatime)).Sorted (· < ·) ∧
      (∀ t : ℕ, t ∈ out.map (·.datatime) ↔ t ∈ frl.flatten.map (·.datatime)) ∧
      (∀ (t : ℕ) (r : FactorResult),
        frl.flatten.filter (fun x => x.datatime = t) = [r] →
        ∃ cs ∈ out, cs.datatime = t ∧ cs.factor_count = 1 ∧
          cs.composite_score =
            zscoreSpec ((frl.flatten.filter
                (fun x => x.factor_name = r.factor_name)).map (·.value)) r.value
              * r.weight / r.weight) := by
  refine ⟨_, combine_factors_eq_some frl hne, ?_, ?_, ?_⟩
  · rw [datatimes_of_combine]
    exact sortedTimes_sorted_lt _
  · intro t
    rw [datatimes_of_combine]
    exact mem_sortedTimes _ t
  · intro t r hfilter
    have hrfil : r ∈ frl.flatten.filter (fun x => x.datatime = t) := by
      rw [hfilter]; exact List.mem_singleton_self r
    have hrmem : r ∈ frl.flatten := (List.mem_filter.1 hrfil).1
    have hrt : r.datatime = t := by
      have := (List.mem_filter.1 hrfil).2
      simpa using this
    have htmem : t ∈ sortedTimes frl.flatten := by
      rw [mem_sortedTimes]
      exact List.mem_map.2 ⟨r, hrmem, hrt⟩
    refine ⟨combineRow frl.flatten t, List.mem_map_of_mem _ htmem, rfl, ?_, ?_⟩
    · simp [combineRow, hfilter]
    · simp [combineRow, hfilter, normalizedValue_eq_zscoreSpec]

theorem combine_factors_output_shape_witness :
    wFrl1.flatten ≠ [] ∧
    (∃ out, combine_factors wFrl1 = some out ∧
      (out.map (·.datatime)).Sorted (· < ·) ∧
      (∀ t : ℕ, t ∈ out.map (·.datatime) ↔ t ∈ wFrl1.flatten.map (·.datatime)) ∧
      (∀ (t : ℕ) (r : FactorResult),
        wFrl1.flatten.filter (fun x => x.datatime = t) = [r] →
        ∃ cs ∈ out, cs.datatime = t ∧ cs.factor_count = 1 ∧
          cs.composite_score =
            zscoreSpec ((wFrl1.flatten.filter
                (fun x => x.factor_name = r.factor_name)).map (·.value)) r.value
              * r.weight / r.weight)) :=
  ⟨by simp [wFrl1], combine_factors_output_shape wFrl1 (by simp [wFrl1])⟩


/-- The claim's reweighted duplicate: `A` with every item's weight replaced
by `w'` (the items are otherwise identical). -/
noncomputable def reweight (A : List FactorResult) (w' : ℝ) : List FactorResult :=
  A.map (fun r => { r with weight := w' })

lemma mean_append_self (l : List ℝ) : mean (l ++ l) = mean l := by
  rcases l with _ | ⟨x, xs⟩
  · simp [mean]
  · have hn : (((x :: xs).length : ℝ)) ≠ 0 :=
      Nat.cast_ne_zero.mpr (by simp)
    unfold mean
    rw [List.sum_append, List.length_append]
    push_cast
    field_simp
    ring

lemma sampleStd_ne_zero_of_gt {l : List ℝ} (h : sampleStd l > 1e-8) :
    sampleStd l ≠ 0 :=
  (lt_trans (by norm_num) h).ne'

lemma filter_name_eq_self (P : List FactorResult) (f : String)
    (hall : ∀ x ∈ P, x.factor_name = f) (r : FactorResult) (hr : r.factor_name = f) :
    P.filter (fun x => x.factor_name = r.factor_name) = P := by
  apply List.filter_eq_self.mpr
  intro x hx
  simp [hall x hx, hr]

lemma normalizedValue_uniform (P : List FactorResult) (f : String)
    (hall : ∀ x ∈ P, x.factor_name = f) (r : FactorResult) (hr : r.factor_name = f)
    (hstd : sampleStd (P.map (·.value)) > 1e-8) :
    normalizedValue P r =
      (r.value - mean (P.map (·.value))) / sampleStd (P.map (·.value)) := by
  unfold normalizedValue
  rw [filter_name_eq_self P f hall r hr, if_pos hstd]

lemma combineRow_dup_half (A : List FactorResult) (f : String) (w : ℝ)
    (hname : ∀ r ∈ A, r.factor_name = f)
    (hwt : ∀ r ∈ A, r.weight = w)
    (hs1 : sampleStd (A.map (·.value)) > 1e-8)
    (hs2 : sampleStd (A.map (·.value) ++ A.map (·.value)) > 1e-8)
    (t : ℕ) :
    (combineRow (reweight A (w / 2) ++ reweight A (w / 2)) t).composite_score
      = (sampleStd (A.map (·.value)) /
          sampleStd (A.map (·.value) ++ A.map (·.value))) *
        (combineRow A t).composite_score := by
  have hs1' : sampleStd (A.map (·.value)) ≠ 0 := sampleStd_ne_zero_of_gt hs1
  have hs2' : sampleStd (A.map (·.value) ++ A.map (·.value)) ≠ 0 :=
    sampleStd_ne_zero_of_gt hs2
  set P := reweight A (w / 2) ++ reweight A (w / 2) with hP
  have hPname : ∀ x ∈ P, x.factor_name = f := by
    intro x hx
    rw [hP] at hx
    rcases List.mem_append.1 hx with hx | hx <;>
    · obtain ⟨y, hy, rfl⟩ := List.mem_map.1 hx
      exact hname y hy
  have hPvals : P.map (·.value) = A.map (·.value) ++ A.map (·.value) := by
    have hcomp : ((fun x : FactorResult => x.value) ∘
        (fun r : FactorResult => { r with weight := w / 2 })) =
        fun r : FactorResult => r.value := rfl
    simp only [hP, reweight, List.map_append, List.map_map, hcomp]
  have hfil : P.filter (fun r => r.datatime = t)
      = (A.filter (fun r => r.datatime = t)).map
          (fun r => { r with weight := w / 2 })
        ++ (A.filter (fun r => r.datatime = t)).map
          (fun r => { r with weight := w / 2 }) := by
    simp only [hP, reweight, List.filter_append, List.filter_map]
    rfl
  have hgsub : ∀ r ∈ A.filter (fun r => r.datatime = t), r ∈ A :=
    fun r hr => (List.mem_filter.1 hr).1
  have hN2 : ∀ r ∈ A, normalizedValue P { r with weight := w / 2 }
      = (r.value - mean (A.map (·.value))) /
          sampleStd (A.map (·.value) ++ A.map (·.value)) := by
    intro r hr
    have h := normalizedValue_uniform P f hPname { r with weight := w / 2 }
      (hname r hr) (by rw [hPvals]; exact hs2)
    rw [h, hPvals, mean_append_self]
  have hN1 : ∀ r ∈ A, normalizedValue A r
      = (r.value - mean (A.map (·.value))) / sampleStd (A.map (·.value)) :=
    fun r hr => normalizedValue_uniform A f hname r (hname r hr) hs1
  simp only [combineRow]
  rw [hfil]
  simp only [List.map_append, List.sum_append]
  have e1 : ((A.filter (fun r => r.datatime = t)).map
        (fun r => { r with weight := w / 2 })).map
        (fun r => normalizedValue P r * r.weight)
      = (A.filter (fun r => r.datatime = t)).map
        (fun r => ((r.value - mean (A.map (·.value))) /
            sampleStd (A.map (·.value) ++ A.map (·.value))) * (w / 2)) := by
    rw [List.map_map]
    refine List.map_congr_left (fun r hr => ?_)
    show normalizedValue P { r with weight := w / 2 } * _ = _
    rw [hN2 r (hgsub r hr)]
  have e2 : ((A.filter (fun r => r.datatime = t)).map
        (fun r => { r with weight := w / 2 })).map (fun x => x.weight)
      = (A.filter (fun r => r.datatime = t)).map (fun _ => w / 2) := by
    rw [List.map_map]
    rfl
  have e3 : (A.filter (fun r => r.datatime = t)).map
        (fun r => normalizedValue A r * r.weight)
      = (A.filter (fun r => r.datatime = t)).map
        (fun r => ((r.value - mean (A.map (·.value))) /
            sampleStd (A.map (·.value))) * w) := by
    refine List.map_congr_left (fun r hr => ?_)
    rw [hN1 r (hgsub r hr), hwt r (hgsub r hr)]
  have e4 : (A.filter (fun r => r.datatime = t)).map (fun x : FactorResult => x.weight)
      = (A.filter (fun r => r.datatime = t)).map (fun _ => w) :=
    List.map_congr_left (fun r hr => hwt r (hgsub r hr))
  rw [e1, e2, e3, e4]
  have hSS : ((A.filter (fun r => r.datatime = t)).map
        (fun r => ((r.value - mean (A.map (·.value))) /
            sampleStd (A.map (·.value) ++ A.map (·.value))) * (w / 2))).sum +
      ((A.filter (fun r => r.datatime = t)).map
        (fun r => ((r.value - mean (A.map (·.value))) /
            sampleStd (A.map (·.value) ++ A.map (·.value))) * (w / 2))).sum
      = (sampleStd (A.map (·.value)) /
          sampleStd (A.map (·.value) ++ A.map (·.value))) *
        ((A.filter (fun r => r.datatime = t)).map
          (fun r => ((r.value - mean (A.map (·.value))) /
              sampleStd (A.map (·.value))) * w)).sum := by
    rw [← two_mul, ← List.sum_map_mul_left, ← List.sum_map_mul_left]
    refine congrArg List.sum (List.map_congr_left (fun r _ => ?_))
    field_simp
    ring
  have hCC : ((A.filter (fun r => r.datatime = t)).map
        (fun _ : FactorResult => w / 2)).sum +
      ((A.filter (fun r => r.datatime = t)).map
        (fun _ : FactorResult => w / 2)).sum
      = ((A.filter (fun r => r.datatime = t)).map (fun _ : FactorResult => w)).sum := by
    rw [← two_mul, ← List.sum_map_mul_left]
    refine congrArg List.sum (List.map_congr_left (fun r _ => ?_))
    ring
  rw [hSS, hCC, mul_div_assoc]

/-- C2 (amended): with duplicated input `[A, A]` at half weight the pooled
factor history doubles, so its sample (`ddof = 1`) standard deviation
changes; each composite score of the duplicated run equals the
corresponding score of `[A]` multiplied by the constant
`std(vals) / std(vals ++ vals)` — the claimed equality holds only for a
degenerate value series.  Hypotheses: `A` non-empty with one factor name
and one weight `w ≠ 0`, both pooled histories non-degenerate. -/
theorem combine_duplicate_halfweight_scales (A : List FactorResult)
    (f : String) (w : ℝ)
    (hA : A ≠ [])
    (hname : ∀ r ∈ A, r.factor_name = f)
    (hwt : ∀ r ∈ A, r.weight = w)
    (hw0 : w ≠ 0)
    (hs1 : sampleStd (A.map (·.value)) > 1e-8)
    (hs2 : sampleStd (A.map (·.value) ++ A.map (·.value)) > 1e-8) :
    scoresOf (combine_factors [reweight A (w / 2), reweight A (w / 2)])
      = (scoresOf (combine_factors [A])).map
          (fun c => (sampleStd (A.map (·.value)) /
            sampleStd (A.map (·.value) ++ A.map (·.value))) * c) := by
  have hf1 : ([A] : List (List FactorResult)).flatten = A := by simp
  have hf2 : ([reweight A (w / 2), reweight A (w / 2)] :
      List (List FactorResult)).flatten
      = reweight A (w / 2) ++ reweight A (w / 2) := by simp
  have hne1 : ([A] : List (List FactorResult)).flatten ≠ [] := by
    rw [hf1]; exact hA
  have hne2 : ([reweight A (w / 2), reweight A (w / 2)] :
      List (List FactorResult)).flatten ≠ [] := by
    rw [hf2]
    simp [reweight, hA]
  rw [combine_factors_eq_some _ hne1, combine_factors_eq_some _ hne2, hf1, hf2]
  simp only [scoresOf, Option.getD_some, List.map_map]
  have hdt : ((fun x : FactorResult => x.datatime) ∘
      (fun r : FactorResult => { r with weight := w / 2 })) =
      fun r : FactorResult => r.datatime := rfl
  have hT : sortedTimes (reweight A (w / 2) ++ reweight A (w / 2))
      = sortedTimes A := by
    have n1 : (sortedTimes (reweight A (w / 2) ++ reweight A (w / 2))).Nodup :=
      ((List.perm_insertionSort _ _).nodup_iff).2 (List.nodup_dedup _)
    have n2 : (sortedTimes A).Nodup :=
      ((List.perm_insertionSort _ _).nodup_iff).2 (List.nodup_dedup _)
    refine List.eq_of_perm_of_sorted
      ((List.perm_ext_iff_of_nodup n1 n2).2 (fun a => ?_))
      (List.sorted_insertionSort _ _) (List.sorted_insertionSort _ _)
    rw [mem_sortedTimes, mem_sortedTimes]
    simp only [reweight, List.map_append, List.map_map, hdt, List.mem_append, or_self]
  rw [hT]
  refine List.map_congr_left (fun t _ => ?_)
  simp only [Function.comp_apply]
  exact combineRow_dup_half A f w hname hwt hs1 hs2 t

/-- Concrete one-factor list for the C2 counterexample and witnesses:
factor `"a"`, values `0, 1, 2` at timestamps `0, 1, 2`, weight `1`. -/
noncomputable def wA : List FactorResult :=
  [⟨"a", 0, 0, 1⟩, ⟨"a", 1, 1, 1⟩, ⟨"a", 2, 2, 1⟩]

lemma mean012 : mean ([0, 1, 2] : List ℝ) = 1 := by
  norm_num [mean]

lemma var012 : sampleVar ([0, 1, 2] : List ℝ) = 1 := by
  norm_num [sampleVar, mean]

lemma std012 : sampleStd ([0, 1, 2] : List ℝ) = 1 := by
  rw [sampleStd, var012, Real.sqrt_one]

lemma mean012012 : mean ([0, 1, 2, 0, 1, 2] : List ℝ) = 1 := by
  norm_num [mean]

lemma var012012 : sampleVar ([0, 1, 2, 0, 1, 2] : List ℝ) = 4 / 5 := by
  norm_num [sampleVar, mean]

lemma std012012 : sampleStd ([0, 1, 2, 0, 1, 2] : List ℝ) = Real.sqrt (4 / 5) := by
  rw [sampleStd, var012012]

lemma std012012_gt : sampleStd ([0, 1, 2, 0, 1, 2] : List ℝ) > 1e-8 := by
  rw [std012012]
  rw [gt_iff_lt, Real.lt_sqrt (by norm_num)]
  norm_num

lemma wA_names : ∀ r ∈ wA, r.factor_name = "a" := by
  intro r hr
  simp only [wA, List.mem_cons, List.not_mem_nil, or_false] at hr
  rcases hr with rfl | rfl | rfl <;> rfl

lemma wA_weights : ∀ r ∈ wA, r.weight = 1 := by
  intro r hr
  simp only [wA, List.mem_cons, List.not_mem_nil, or_false] at hr
  rcases hr with rfl | rfl | rfl <;> rfl

lemma wA_vals : wA.map (·.value) = ([0, 1, 2] : List ℝ) := rfl

lemma wA_std_gt : sampleStd (wA.map (·.value)) > 1e-8 := by
  rw [wA_vals, std012]
  norm_num

lemma wA_std2_gt : sampleStd (wA.map (·.value) ++ wA.map (·.value)) > 1e-8 := by
  have h : wA.map (·.value) ++ wA.map (·.value) = ([0, 1, 2, 0, 1, 2] : List ℝ) := rfl
  rw [h]
  exact std012012_gt


/-- C2 as stated is false: with `A` = `wA` (values `0,1,2`, weight `1`),
combining `[A]` gives composite `-1` at the shared timestamp `0`, while
combining `[A, A]` with weight `1/2` each gives `(0-1)/√(4/5)` there
(pooling the duplicate changes the sample standard deviation). -/
theorem combine_duplicate_halfweight_cex :
    ((combine_factors [wA]).getD []).map (fun c => c.datatime)
        = ((combine_factors [reweight wA ((1 : ℝ) / 2),
            reweight wA ((1 : ℝ) / 2)]).getD []).map (fun c => c.datatime) ∧
    (scoresOf (combine_factors [wA])).head? = some (-1) ∧
    (scoresOf (combine_factors [reweight wA ((1 : ℝ) / 2),
        reweight wA ((1 : ℝ) / 2)])).head?
      = some ((0 - 1) / Real.sqrt (4 / 5)) ∧
    (-1 : ℝ) ≠ (0 - 1) / Real.sqrt (4 / 5) := by
  have hfA : ([wA] : List (List FactorResult)).flatten = wA := by simp
  have hstA : sortedTimes wA = [0, 1, 2] := by decide
  have hsingle : combine_factors [wA]
      = some (([0, 1, 2] : List ℕ).map (combineRow wA)) := by
    rw [combine_factors_eq_some _ (by rw [hfA]; simp [wA]), hfA, hstA]
  have hfP : ([reweight wA ((1 : ℝ) / 2), reweight wA ((1 : ℝ) / 2)] :
      List (List FactorResult)).flatten
      = reweight wA ((1 : ℝ) / 2) ++ reweight wA ((1 : ℝ) / 2) := by simp
  have hstP : sortedTimes (reweight wA ((1 : ℝ) / 2) ++ reweight wA ((1 : ℝ) / 2))
      = [0, 1, 2] := by decide
  have hdouble : combine_factors [reweight wA ((1 : ℝ) / 2), reweight wA ((1 : ℝ) / 2)]
      = some (([0, 1, 2] : List ℕ).map
          (combineRow (reweight wA ((1 : ℝ) / 2) ++ reweight wA ((1 : ℝ) / 2)))) := by
    rw [combine_factors_eq_some _ (by rw [hfP]; simp [reweight, wA]), hfP, hstP]
  have hn0 : normalizedValue wA ⟨"a", 0, 0, 1⟩ = -1 := by
    have h := normalizedValue_uniform wA "a" wA_names ⟨"a", 0, 0, 1⟩ rfl wA_std_gt
    rw [h, wA_vals, mean012, std012]
    norm_num
  have hfil0 : wA.filter (fun r => r.datatime = 0)
      = [(⟨"a", 0, 0, 1⟩ : FactorResult)] := by
    simp [wA, List.filter]
  have hrow0 : (combineRow wA 0).composite_score = -1 := by
    simp only [combineRow, hfil0, List.map_cons, List.map_nil, List.sum_cons,
      List.sum_nil]
    rw [hn0]
    norm_num
  have hPnames : ∀ x ∈ reweight wA ((1 : ℝ) / 2) ++ reweight wA ((1 : ℝ) / 2),
      x.factor_name = "a" := by
    intro x hx
    rcases List.mem_append.1 hx with hx | hx <;>
    · obtain ⟨y, hy, rfl⟩ := List.mem_map.1 hx
      exact wA_names y hy
  have hPvals : (reweight wA ((1 : ℝ) / 2) ++ reweight wA ((1 : ℝ) / 2)).map (·.value)
      = ([0, 1, 2, 0, 1, 2] : List ℝ) := rfl
  have hPstd : sampleStd ((reweight wA ((1 : ℝ) / 2)
      ++ reweight wA ((1 : ℝ) / 2)).map (·.value)) > 1e-8 := by
    rw [hPvals]
    exact std012012_gt
  have hnP : normalizedValue (reweight wA ((1 : ℝ) / 2) ++ reweight wA ((1 : ℝ) / 2))
      ⟨"a", 0, 0, (1 : ℝ) / 2⟩ = (0 - 1) / Real.sqrt (4 / 5) := by
    have h := normalizedValue_uniform _ "a" hPnames ⟨"a", 0, 0, (1 : ℝ) / 2⟩ rfl hPstd
    rw [h, hPvals, mean012012, std012012]
  have hfilP0 : (reweight wA ((1 : ℝ) / 2) ++ reweight wA ((1 : ℝ) / 2)).filter
      (fun r => r.datatime = 0)
      = [(⟨"a", 0, 0, (1 : ℝ) / 2⟩ : FactorResult), ⟨"a", 0, 0, (1 : ℝ) / 2⟩] := by
    simp [reweight, wA, List.filter]
  have hrowP0 : (combineRow (reweight wA ((1 : ℝ) / 2)
      ++ reweight wA ((1 : ℝ) / 2)) 0).composite_score
      = (0 - 1) / Real.sqrt (4 / 5) := by
    simp only [combineRow, hfilP0, List.map_cons, List.map_nil, List.sum_cons,
      List.sum_nil]
    rw [hnP]
    have hne : Real.sqrt (4 / 5) ≠ 0 := (Real.sqrt_pos.2 (by norm_num)).ne'
    field_simp
    ring
  refine ⟨?_, ?_, ?_, ?_⟩
  · rw [hsingle, hdouble]
    rfl
  · rw [hsingle]
    simp only [scoresOf, Option.getD_some, List.map_cons, List.map_nil,
      List.head?_cons]
    rw [hrow0]
  · rw [hdouble]
    simp only [scoresOf, Option.getD_some, List.map_cons, List.map_nil,
      List.head?_cons]
    rw [hrowP0]
  · intro h
    have hpos : Real.sqrt (4 / 5) ≠ 0 := (Real.sqrt_pos.2 (by norm_num)).ne'
    have h1 : Real.sqrt (4 / 5) = 1 := by
      field_simp at h
      linarith
    rw [Real.sqrt_eq_one] at h1
    norm_num at h1

theorem combine_duplicate_halfweight_scales_witness :
    (wA ≠ [] ∧ (∀ r ∈ wA, r.factor_name = "a") ∧ (∀ r ∈ wA, r.weight = 1) ∧
      (1 : ℝ) ≠ 0 ∧ sampleStd (wA.map (·.value)) > 1e-8 ∧
      sampleStd (wA.map (·.value) ++ wA.map (·.value)) > 1e-8) ∧
    scoresOf (combine_factors [reweight wA ((1 : ℝ) / 2), reweight wA ((1 : ℝ) / 2)])
      = (scoresOf (combine_factors [wA])).map
          (fun c => (sampleStd (wA.map (·.value)) /
            sampleStd (wA.map (·.value) ++ wA.map (·.value))) * c) :=
  ⟨⟨by simp [wA], wA_names, wA_weights, by norm_num, wA_std_gt, wA_std2_gt⟩,
    combine_duplicate_halfweight_scales wA "a" 1 (by simp [wA]) wA_names wA_weights
      (by norm_num) wA_std_gt wA_std2_gt⟩

/-- The OHLC dataset row (`entity/CommonStockDataset.py`); only the fields
the verified code paths read are modelled (`datatime`, `close`). -/
structure CommonStockDataset where
  datatime : ℕ
  close : ℚ

/-- `FactorRegistry`: the `self.factors` dict of `RegimeService`, updated by
`register_factor` (later registration shadows earlier). -/
def Registry : Type := List (String × ℝ)

/-- `RegimeService.register_factor`: `self.factors[factor_name] = weight`. -/
def register_factor (reg : Registry) (name : String) (w : ℝ) : Registry :=
  (name, w) :: reg

/-- `self.factors.get(name, 1.0)`. -/
noncomputable def weightOf (reg : Registry) (name : String) : ℝ :=
  (List.lookup name reg).getD 1

/-- Mean of a list of rationals (pandas mean in the all-rational services). -/
def meanQ (l : List ℚ) : ℚ := l.sum / l.length

/-- The pandas rolling window ending at index `i` with window size `period`
and `min_periods = 1`: the last `min (i+1) period` elements of the prefix. -/
def rollWindow (closes : List ℚ) (period i : ℕ) : List ℚ :=
  (closes.take (i + 1)).drop (i + 1 - period)

/-- `MADataPoint` of `MAService.py`. -/
structure MADataPoint where
  datatime : ℕ
  value : ℚ

/-- `MAService._calculate_ma_line`: rolling mean of `close` with
`min_periods = period`; the leading `period - 1` NaN rows are dropped by
`dropna`, i.e. only indices with `period ≤ i + 1` produce a point. -/
def _calculate_ma_line (ds : List CommonStockDataset) (period : ℕ) :
    List MADataPoint :=
  if ds.isEmpty ∨ ds.length < period then []
  else
    ((List.range ds.length).filter (fun i => period ≤ i + 1)).map
      (fun i => ⟨(ds.map (·.datatime)).getD i 0,
                 meanQ (rollWindow (ds.map (·.close)) period i)⟩)

/-- C8: for a series of length `≥ period` (`period ≥ 1`) the MA line is
non-empty and its last value is the arithmetic mean of the last `period`
closes. -/
theorem ma_last_eq_mean_of_last_period (ds : List CommonStockDataset)
    (period : ℕ) (h1 : 1 ≤ period) (h2 : period ≤ ds.length) :
    _calculate_ma_line ds period ≠ [] ∧
    ((_calculate_ma_line ds period).getLast?).map (·.value)
      = some (((ds.map (·.close)).drop (ds.length - period)).sum / period) := by
  have hcond : ¬(ds.isEmpty = true ∨ ds.length < period) := by
    rintro (h | h)
    · rw [List.isEmpty_iff] at h
      rw [h] at h2
      simp at h2
      omega
    · omega
  have hbody : _calculate_ma_line ds period
      = ((List.range ds.length).filter (fun i => period ≤ i + 1)).map
          (fun i => ⟨(ds.map (·.datatime)).getD i 0,
                     meanQ (rollWindow (ds.map (·.close)) period i)⟩) := by
    rw [_calculate_ma_line, if_neg hcond]
  have hn1 : ds.length = Nat.succ (ds.length - 1) := by omega
  have hsplit : List.range ds.length
      = List.range (ds.length - 1) ++ [ds.length - 1] := by
    conv_lhs => rw [hn1]
    exact List.range_succ _
  have hplast : period ≤ (ds.length - 1) + 1 := by omega
  have hfilter : (List.range ds.length).filter (fun i => period ≤ i + 1)
      = (List.range (ds.length - 1)).filter (fun i => period ≤ i + 1)
        ++ [ds.length - 1] := by
    rw [hsplit, List.filter_append]
    congr 1
    simp [hplast]
  have hlastval : meanQ (rollWindow (ds.map (·.close)) period (ds.length - 1))
      = ((ds.map (·.close)).drop (ds.length - period)).sum / period := by
    have hwin : rollWindow (ds.map (·.close)) period (ds.length - 1)
        = (ds.map (·.close)).drop (ds.length - period) := by
      rw [rollWindow]
      have hn1' : ds.length - 1 + 1 = ds.length := by omega
      rw [hn1']
      have htake : (ds.map (·.close)).take ds.length = ds.map (·.close) := by
        rw [← List.length_map ds (·.close)]
        exact List.take_length _
      rw [htake]
    rw [hwin, meanQ]
    congr 1
    rw [List.length_drop, List.length_map]
    congr 1
    omega
  constructor
  · rw [hbody, hfilter, List.map_append]
    simp
  · rw [hbody, hfilter, List.map_append, List.map_cons, List.map_nil,
      List.getLast?_concat]
    simp only [Option.map_some']
    exact congrArg some hlastval

theorem ma_last_eq_mean_of_last_period_witness :
    (1 ≤ 2 ∧ 2 ≤ ([⟨0, 1⟩, ⟨1, 2⟩] : List CommonStockDataset).length) ∧
    (_calculate_ma_line [⟨0, 1⟩, ⟨1, 2⟩] 2 ≠ [] ∧
      ((_calculate_ma_line [⟨0, 1⟩, ⟨1, 2⟩] 2).getLast?).map (·.value)
        = some ((((([⟨0, 1⟩, ⟨1, 2⟩] : List CommonStockDataset)).map
            (·.close)).drop (([⟨0, 1⟩, ⟨1, 2⟩] :
              List CommonStockDataset).length - 2)).sum / 2)) :=
  ⟨⟨by decide, by decide⟩,
    ma_last_eq_mean_of_last_period [⟨0, 1⟩, ⟨1, 2⟩] 2 (by decide) (by decide)⟩

/-- `ewm(span, adjust=False).mean()` recursion after the seed:
`y_i = (1 - α)·y_{i-1} + α·x_i`. -/
def ewmaFrom (α y : ℚ) : List ℚ → List ℚ
  | [] => []
  | x :: xs => ((1 - α) * y + α * x) :: ewmaFrom α ((1 - α) * y + α * x) xs

/-- pandas `Series.ewm(span, adjust=False).mean()`: seeded by the first
element, then the standard exponential recursion. -/
def ewma (α : ℚ) : List ℚ → List ℚ
  | [] => []
  | x :: xs => x :: ewmaFrom α x xs

/-- Positive parts of the price changes (`diff` then `x if x > 0 else 0`;
the leading `NaN` of `diff` fails `NaN > 0` and becomes `0`). -/
def upMoves (prev : ℚ) : List ℚ → List ℚ
  | [] => []
  | c :: cs => max (c - prev) 0 :: upMoves c cs

/-- Magnitudes of the negative price changes (`abs(x) if x < 0 else 0`). -/
def downMoves (prev : ℚ) : List ℚ → List ℚ
  | [] => []
  | c :: cs => max (prev - c) 0 :: downMoves c cs

/-- `RSIDataPoint` of `RSIService.py`. -/
structure RSIDataPoint where
  datatime : ℕ
  value : ℚ

/-- `RSIService._calculate_rsi`: EMA-smoothed average gains and losses with
span `period`; `RSI = 100 - 100/(1 + RS)`, and `100` when the average loss
is `0`.  (The source's `else 0.0` branch for `NaN` averages is unreachable:
the gain/loss series contain no `NaN`.) -/
def _calculate_rsi (ds : List CommonStockDataset) (period : ℕ) :
    List RSIDataPoint :=
  if ds.isEmpty ∨ ds.length < period + 1 then []
  else
    let closes := ds.map (·.close)
    let gains : List ℚ :=
      match closes with
      | [] => []
      | c :: cs => 0 :: upMoves c cs
    let losses : List ℚ :=
      match closes with
      | [] => []
      | c :: cs => 0 :: downMoves c cs
    let ag := ewma (2 / (period + 1)) gains
    let al := ewma (2 / (period + 1)) losses
    (List.range ds.length).map (fun i =>
      ⟨(ds.map (·.datatime)).getD i 0,
       if al.getD i 0 = 0 then 100
       else 100 - 100 / (1 + (ag.getD i 0) / (al.getD i 0))⟩)

/-- The RSI→score mapping inside `RegimeService.calculate_rsi_factor`. -/
def rsiScore (v : ℚ) : ℚ :=
  if v ≥ 70 then -1 * min ((v - 70) / 30) 1
  else if v ≤ 30 then 1 * min ((30 - v) / 30) 1
  else (50 - v) / 20

/-- `RegimeService.calculate_rsi_factor`: score every RSI point and attach
the registered weight of `"rsi"`. -/
noncomputable def calculate_rsi_factor (reg : Registry)
    (ds : List CommonStockDataset) (period : ℕ) : List FactorResult :=
  (_calculate_rsi ds period).map (fun pt =>
    ⟨"rsi", pt.datatime, ((rsiScore pt.value : ℚ) : ℝ), weightOf reg "rsi"⟩)

/-- Modelled from the claim's wording of the RSI score formula. -/
def rsiScoreSpec (v : ℚ) : ℚ :=
  if v ≥ 70 then -(min ((v - 70) / 30) 1)
  else if v ≤ 30 then min ((30 - v) / 30) 1
  else (50 - v) / 20

/-- C7: the RSI factor score is `-min((v-70)/30, 1)` for `v ≥ 70`,
`min((30-v)/30, 1)` for `v ≤ 30` and `(50-v)/20` otherwise, and
`calculate_rsi_factor` applies exactly this mapping to every RSI point. -/
theorem rsi_factor_score_formula (reg : Registry)
    (ds : List CommonStockDataset) (period : ℕ) :
    (∀ v : ℚ, rsiScore v = rsiScoreSpec v) ∧
    calculate_rsi_factor reg ds period
      = (_calculate_rsi ds period).map (fun pt =>
          ⟨"rsi", pt.datatime, ((rsiScoreSpec pt.value : ℚ) : ℝ),
            weightOf reg "rsi"⟩) := by
  have hv : ∀ v : ℚ, rsiScore v = rsiScoreSpec v := by
    intro v
    unfold rsiScore rsiScoreSpec
    split_ifs <;> ring
  refine ⟨hv, ?_⟩
  unfold calculate_rsi_factor
  refine List.map_congr_left (fun pt _ => ?_)
  rw [hv]

/-- The close column as reals (BOLL computes with a square root). -/
noncomputable def closesR (ds : List CommonStockDataset) : List ℝ :=
  ds.map (fun b => (b.close : ℝ))

/-- Rolling window over reals (`rolling(window=period, min_periods=1)`). -/
noncomputable def rollWindowR (closes : List ℝ) (period i : ℕ) : List ℝ :=
  (closes.take (i + 1)).drop (i + 1 - period)

/-- `BOLLService._mid` at index `i`: rolling mean, `min_periods = 1`. -/
noncomputable def bollMid (ds : List CommonStockDataset) (period i : ℕ) : ℝ :=
  mean (rollWindowR (closesR ds) period i)

/-- `BOLLService._upper` at index `i`: `mid + std_dev·std`; a window of
fewer than two closes gives `std = NaN`, so the whole value is replaced by
`0.0` by the `pd.notna` guard. -/
noncomputable def bollUpper (ds : List CommonStockDataset) (period : ℕ)
    (std_dev : ℝ) (i : ℕ) : ℝ :=
  if 2 ≤ (rollWindowR (closesR ds) period i).length then
    bollMid ds period i + std_dev * sampleStd (rollWindowR (closesR ds) period i)
  else 0

/-- `BOLLService._lower` at index `i` (see `bollUpper`). -/
noncomputable def bollLower (ds : List CommonStockDataset) (period : ℕ)
    (std_dev : ℝ) (i : ℕ) : ℝ :=
  if 2 ≤ (rollWindowR (closesR ds) period i).length then
    bollMid ds period i - std_dev * sampleStd (rollWindowR (closesR ds) period i)
  else 0

/-- The per-bar score block of `RegimeService.calculate_boll_factor`:
zero-guard (`upper == lower or upper == 0 or lower == 0`), `%B`, guarded
bandwidth, zone score, volatility adjustment. -/
noncomputable def bollScore (close upper mid lower : ℝ) : ℝ :=
  if upper = lower ∨ upper = 0 ∨ lower = 0 then 0
  else
    let pb := (close - lower) / (upper - lower)
    let bandwidth := if mid > 0 then (upper - lower) / mid else 0
    let zone :=
      if pb > 1 then -1 * min ((pb - 1) * 2 + 0.8) 1
      else if pb > 0.8 then -0.5 - (pb - 0.8) * 1.5
      else if pb < 0 then 1 * min (|pb| * 2 + 0.8) 1
      else if pb < 0.2 then 0.5 + (0.2 - pb) * 1.5
      else (0.5 - pb) * 1
    zone * min (bandwidth / 0.1) 1.5

/-- `RegimeService.calculate_boll_factor`: the band services return `[]`
when `len(dataset) < period`, making the `len(dataset) != len(upper_points)`
guard fire; otherwise every bar is scored with `bollScore`. -/
noncomputable def calculate_boll_factor (reg : Registry)
    (ds : List CommonStockDataset) (period : ℕ) (std_dev : ℝ) :
    List FactorResult :=
  if ds.isEmpty ∨ ds.length < period then []
  else
    (List.range ds.length).map (fun i =>
      ⟨"boll", (ds.map (·.datatime)).getD i 0,
       bollScore ((closesR ds).getD i 0) (bollUpper ds period std_dev i)
         (bollMid ds period i) (bollLower ds period std_dev i),
       weightOf reg "boll"⟩)

/-- Modelled from the claim's wording: score `0` only when the band width
`upper - lower` is zero, otherwise zone score times
`min(bandwidth/0.1, 1.5)` with `bandwidth = (upper - lower)/mid`
(unguarded). -/
noncomputable def bollScoreClaimed (close upper mid lower : ℝ) : ℝ :=
  if upper - lower = 0 then 0
  else
    let pb := (close - lower) / (upper - lower)
    let bandwidth := (upper - lower) / mid
    let zone :=
      if pb > 1 then -1 * min ((pb - 1) * 2 + 0.8) 1
      else if pb > 0.8 then -0.5 - (pb - 0.8) * 1.5
      else if pb < 0 then 1 * min (|pb| * 2 + 0.8) 1
      else if pb < 0.2 then 0.5 + (0.2 - pb) * 1.5
      else (0.5 - pb) * 1
    zone * min (bandwidth / 0.1) 1.5

/-- The amended score formula: as claimed, except the score is `0` also
when either band equals `0`, and the bandwidth is `(upper - lower)/mid`
only for `mid > 0` (else `0`). -/
noncomputable def bollScoreAmended (close upper mid lower : ℝ) : ℝ :=
  if upper - lower = 0 ∨ upper = 0 ∨ lower = 0 then 0
  else
    let pb := (close - lower) / (upper - lower)
    let bandwidth := if mid > 0 then (upper - lower) / mid else 0
    let zone :=
      if pb > 1 then -1 * min ((pb - 1) * 2 + 0.8) 1
      else if pb > 0.8 then -0.5 - (pb - 0.8) * 1.5
      else if pb < 0 then 1 * min (|pb| * 2 + 0.8) 1
      else if pb < 0.2 then 0.5 + (0.2 - pb) * 1.5
      else (0.5 - pb) * 1
    zone * min (bandwidth / 0.1) 1.5

lemma bollScore_eq_amended (close upper mid lower : ℝ) :
    bollScore close upper mid lower = bollScoreAmended close upper mid lower := by
  unfold bollScore bollScoreAmended
  refine if_congr ?_ rfl rfl
  exact or_congr sub_eq_zero.symm Iff.rfl

lemma calculate_boll_factor_value (reg : Registry)
    (ds : List CommonStockDataset) (period : ℕ) (std_dev : ℝ) (i : ℕ)
    (hguard : ¬(ds.isEmpty = true ∨ ds.length < period)) (hi : i < ds.length) :
    ((calculate_boll_factor reg ds period std_dev).map (·.value))[i]?
      = some (bollScore ((closesR ds).getD i 0) (bollUpper ds period std_dev i)
          (bollMid ds period i) (bollLower ds period std_dev i)) := by
  rw [calculate_boll_factor, if_neg hguard]
  rw [List.map_map, List.getElem?_map, List.getElem?_range hi]
  rfl

/-- C6 (amended): every BOLL factor value equals the zone score times the
volatility adjustment with `%B = (close - lower)/(upper - lower)`, except
that the score is `0` when the band width is zero OR either band equals
zero, and the bandwidth is `(upper - lower)/mid` only when `mid > 0`. -/
theorem boll_factor_score_amended (reg : Registry)
    (ds : List CommonStockDataset) (period : ℕ) (std_dev : ℝ) (i : ℕ)
    (h : i < (calculate_boll_factor reg ds period std_dev).length) :
    ((calculate_boll_factor reg ds period std_dev).map (·.value))[i]?
      = some (bollScoreAmended ((closesR ds).getD i 0)
          (bollUpper ds period std_dev i) (bollMid ds period i)
          (bollLower ds period std_dev i)) := by
  by_cases hguard : (ds.isEmpty = true ∨ ds.length < period)
  · rw [calculate_boll_factor, if_pos hguard] at h
    simp at h
  · have hi : i < ds.length := by
      rw [calculate_boll_factor, if_neg hguard] at h
      simpa using h
    rw [calculate_boll_factor_value reg ds period std_dev i hguard hi,
      bollScore_eq_amended]

/-- Concrete three-bar dataset with closes `1, 2, 3` (timestamps `0,1,2`). -/
def wDs3 : List CommonStockDataset := [⟨0, 1⟩, ⟨1, 2⟩, ⟨2, 3⟩]

/-- C6 exactly as stated: zero-score only when the band width is zero,
otherwise the zone score scaled by `min(bandwidth/0.1, 1.5)` with
unguarded bandwidth. -/
def bollClaimProp : Prop :=
  ∀ (reg : Registry) (ds : List CommonStockDataset) (period : ℕ)
    (std_dev : ℝ) (i : ℕ),
    i < (calculate_boll_factor reg ds period std_dev).length →
    ((calculate_boll_factor reg ds period std_dev).map (·.value))[i]?
      = some (bollScoreClaimed ((closesR ds).getD i 0)
          (bollUpper ds period std_dev i) (bollMid ds period i)
          (bollLower ds period std_dev i))

/-- C6 as stated is false: with closes `1,2,3`, `period = 3`,
`std_dev = 2`, the bar at index `2` has bands `upper = 4`, `mid = 2`,
`lower = 0`; the code's `lower == 0` guard zeroes the score although the
width is `4` and the claimed formula gives `-3/8`. -/
theorem boll_factor_score_cex : ¬ bollClaimProp := by
  intro hcl
  have hguard : ¬(wDs3.isEmpty = true ∨ wDs3.length < 3) := by decide
  have hlen : (calculate_boll_factor [] wDs3 3 2).length = 3 := by
    rw [calculate_boll_factor, if_neg hguard]
    simp [wDs3]
  have hwin : rollWindowR (closesR wDs3) 3 2 = [(1 : ℝ), 2, 3] := by
    norm_num [rollWindowR, closesR, wDs3]
  have hmid : bollMid wDs3 3 2 = 2 := by
    rw [bollMid, hwin]
    norm_num [mean]
  have hvar : sampleVar [(1 : ℝ), 2, 3] = 1 := by
    norm_num [sampleVar, mean]
  have hstd : sampleStd [(1 : ℝ), 2, 3] = 1 := by
    rw [sampleStd, hvar, Real.sqrt_one]
  have hupper : bollUpper wDs3 3 2 2 = 4 := by
    rw [bollUpper, hwin, hmid, hstd]
    rw [if_pos (by norm_num)]
    norm_num
  have hlower : bollLower wDs3 3 2 2 = 0 := by
    rw [bollLower, hwin, hmid, hstd]
    rw [if_pos (by norm_num)]
    norm_num
  have hclose : (closesR wDs3).getD 2 0 = 3 := by
    norm_num [closesR, wDs3]
  have hcode : ((calculate_boll_factor [] wDs3 3 2).map (·.value))[2]?
      = some (bollScore 3 4 2 0) := by
    rw [calculate_boll_factor_value [] wDs3 3 2 2 hguard (by decide)]
    rw [hclose, hupper, hmid, hlower]
  have hzero : bollScore 3 4 2 0 = 0 := by
    rw [bollScore, if_pos (Or.inr (Or.inr rfl))]
  have hclaimval : bollScoreClaimed 3 4 2 0 = -(3 / 8) := by
    rw [bollScoreClaimed, if_neg (by norm_num)]
    norm_num [min_def]
  have h2 := hcl [] wDs3 3 2 2 (by rw [hlen]; norm_num)
  rw [hclose, hupper, hmid, hlower, hclaimval] at h2
  have h3 := hcode.symm.trans h2
  rw [hzero] at h3
  simp only [Option.some.injEq] at h3
  norm_num at h3

theorem boll_factor_score_amended_witness :
    0 < (calculate_boll_factor [] wDs3 3 2).length ∧
    ((calculate_boll_factor [] wDs3 3 2).map (·.value))[0]?
      = some (bollScoreAmended ((closesR wDs3).getD 0 0)
          (bollUpper wDs3 3 2 0) (bollMid wDs3 3 0) (bollLower wDs3 3 2 0)) :=
  ⟨by
    rw [calculate_boll_factor, if_neg (by decide)]
    simp [wDs3],
   boll_factor_score_amended [] wDs3 3 2 0 (by
    rw [calculate_boll_factor, if_neg (by decide)]
    simp [wDs3])⟩

/-- `DDDataPoint` of `DDService.py`. -/
structure DDDataPoint where
  datatime : ℕ
  value : ℚ

/-- The value of `signal_type` in the `signal_line` loop (`None`,
`'golden'`, `'death'`). -/
inductive SigType where
  | noSig : SigType
  | golden : SigType
  | death : SigType
deriving DecidableEq

/-- The mutable loop state of `DDService.signal_line`:
`current_signal`, `signal_type`, `signal_counter`. -/
structure SigState where
  current : ℤ
  stype : SigType
  counter : ℤ
deriving DecidableEq

/-- Initial loop state: `current_signal = 0`, no type, counter `0`. -/
def sigInit : SigState := ⟨0, SigType.noSig, 0⟩

/-- One iteration of the `signal_line` loop body for `i > 0`: golden cross,
death cross, golden/death continuation, otherwise hold everything. -/
def sigStep (s : SigState) (prev cur : ℚ × ℚ) : SigState :=
  if prev.1 ≤ prev.2 ∧ cur.1 > cur.2 then ⟨100000, SigType.golden, 0⟩
  else if prev.1 ≥ prev.2 ∧ cur.1 < cur.2 then ⟨200000, SigType.death, 0⟩
  else if s.stype = SigType.golden ∧ cur.1 > cur.2 then
    ⟨100000 + (s.counter + 1), SigType.golden, s.counter + 1⟩
  else if s.stype = SigType.death ∧ cur.1 < cur.2 then
    ⟨200000 + (s.counter + 1), SigType.death, s.counter + 1⟩
  else s

/-- The loop states over the bars after the first, carrying the previous
bar's DIF/DEA values. -/
def sigStates2 (pd pe : ℚ) (s : SigState) : List ℚ → List ℚ → List SigState
  | d :: ds, e :: es =>
    sigStep s (pd, pe) (d, e) :: sigStates2 d e (sigStep s (pd, pe) (d, e)) ds es
  | _, _ => []

/-- The per-bar loop states of `signal_line` (bar `0` does not run any
branch, so its state is the initial one). -/
def traceStates (dvals evals : List ℚ) : List SigState :=
  match dvals, evals with
  | d :: ds, e :: es => sigInit :: sigStates2 d e sigInit ds es
  | _, _ => []

/-- `DDService.signal_line`: emit `float(current_signal)` at every bar. -/
def signal_line (dif dea : List DDDataPoint) : List DDDataPoint :=
  if dif.isEmpty ∨ dea.isEmpty then []
  else
    (dif.zip (traceStates (dif.map (·.value)) (dea.map (·.value)))).map
      (fun pe => ⟨pe.1.datatime, (pe.2.current : ℚ)⟩)

/-- The emitted numeric signal values of `signal_line`. -/
def sigVals (dif dea : List DDDataPoint) : List ℚ :=
  (signal_line dif dea).map (·.value)

/-- A value in the Golden band of the downstream encoding. -/
def goldenVal (v : ℚ) : Prop := 100000 ≤ v ∧ v < 200000

/-- A value in the Death band of the downstream encoding. -/
def deathVal (v : ℚ) : Prop := 200000 ≤ v

instance (v : ℚ) : Decidable (goldenVal v) := by
  unfold goldenVal
  infer_instance

instance (v : ℚ) : Decidable (deathVal v) := by
  unfold deathVal
  infer_instance

lemma sigStates2_length (ds : List ℚ) :
    ∀ (es : List ℚ) (pd pe : ℚ) (s : SigState),
      (sigStates2 pd pe s ds es).length = min ds.length es.length := by
  induction ds with
  | nil => intro es pd pe s; cases es <;> simp [sigStates2]
  | cons d ds ih =>
    intro es pd pe s
    cases es with
    | nil => simp [sigStates2]
    | cons e es =>
      simp [sigStates2, ih es d e]
      omega

lemma sigStates2_getD_succ (ds : List ℚ) :
    ∀ (es : List ℚ) (pd pe : ℚ) (s : SigState) (i : ℕ),
      i + 1 < (sigStates2 pd pe s ds es).length →
      (sigStates2 pd pe s ds es).getD (i + 1) sigInit
        = sigStep ((sigStates2 pd pe s ds es).getD i sigInit)
            (ds.getD i 0, es.getD i 0) (ds.getD (i + 1) 0, es.getD (i + 1) 0) := by
  induction ds with
  | nil => intro es pd pe s i h; simp [sigStates2] at h
  | cons d ds ih =>
    intro es pd pe s i h
    cases es with
    | nil => simp [sigStates2] at h
    | cons e es =>
      cases i with
      | zero =>
        cases ds with
        | nil => simp [sigStates2] at h
        | cons d2 ds2 =>
          cases es with
          | nil => simp [sigStates2, sigStates2_length] at h
          | cons e2 es2 => rfl
      | succ i =>
        have h2 : i + 1 < (sigStates2 d e (sigStep s (pd, pe) (d, e)) ds es).length := by
          simpa [sigStates2] using h
        simpa [sigStates2, List.getD_cons_succ] using ih es d e (sigStep s (pd, pe) (d, e)) i h2

lemma traceStates_getD_zero (dvals evals : List ℚ) :
    (traceStates dvals evals).getD 0 sigInit = sigInit := by
  cases dvals <;> cases evals <;> rfl

lemma traceStates_getD_succ (dvals evals : List ℚ) (i : ℕ)
    (h : i + 1 < (traceStates dvals evals).length) :
    (traceStates dvals evals).getD (i + 1) sigInit
      = sigStep ((traceStates dvals evals).getD i sigInit)
          (dvals.getD i 0, evals.getD i 0)
          (dvals.getD (i + 1) 0, evals.getD (i + 1) 0) := by
  match dvals, evals with
  | [], _ => simp [traceStates] at h
  | d :: ds, [] => simp [traceStates] at h
  | d :: ds, e :: es =>
    cases i with
    | zero =>
      have hne : 0 < (sigStates2 d e sigInit ds es).length := by
        simpa [traceStates] using h
      cases ds with
      | nil => simp [sigStates2_length] at hne
      | cons d2 ds2 =>
        cases es with
        | nil => simp [sigStates2_length] at hne
        | cons e2 es2 => rfl
    | succ i =>
      have h2 : i + 1 < (sigStates2 d e sigInit ds es).length := by
        simpa [traceStates] using h
      show (sigStates2 d e sigInit ds es).getD (i + 1) sigInit = _
      rw [sigStates2_getD_succ ds es d e sigInit i h2]
      rfl

/-- The loop invariant of `signal_line`, relating a bar's state to the
DIF/DEA pair of that bar: a `golden` state carries
`current = 100000 + counter` (`counter ≥ 0`, `DIF ≥ DEA` on its bar), a
`death` state `current = 200000 + counter` (`DIF ≤ DEA`), and the initial
type carries `current = 0`. -/
def StateInv (s : SigState) (cur : ℚ × ℚ) : Prop :=
  (s.stype = SigType.golden → s.current = 100000 + s.counter ∧ 0 ≤ s.counter ∧ cur.2 ≤ cur.1) ∧
  (s.stype = SigType.death → s.current = 200000 + s.counter ∧ 0 ≤ s.counter ∧ cur.1 ≤ cur.2) ∧
  (s.stype = SigType.noSig → s.current = 0)

lemma sigStep_inv (s : SigState) (prev cur : ℚ × ℚ) (hs : StateInv s prev) :
    StateInv (sigStep s prev cur) cur := by
  obtain ⟨hg, hd, hn⟩ := hs
  unfold sigStep
  split_ifs with h1 h2 h3 h4
  · exact ⟨fun _ => ⟨by norm_num, by norm_num, le_of_lt h1.2⟩,
      fun h => by simp at h, fun h => by simp at h⟩
  · exact ⟨fun h => by simp at h,
      fun _ => ⟨by norm_num, by norm_num, le_of_lt h2.2⟩, fun h => by simp at h⟩
  · obtain ⟨hcur, hcnt, hprev⟩ := hg h3.1
    exact ⟨fun _ => ⟨rfl, by show (0 : ℤ) ≤ s.counter + 1; omega, le_of_lt h3.2⟩,
      fun h => by simp at h, fun h => by simp at h⟩
  · obtain ⟨hcur, hcnt, hprev⟩ := hd h4.1
    exact ⟨fun h => by simp at h,
      fun _ => ⟨rfl, by show (0 : ℤ) ≤ s.counter + 1; omega, le_of_lt h4.2⟩,
      fun h => by simp at h⟩
  · refine ⟨fun hgold => ?_, fun hdeath => ?_, hn⟩
    · obtain ⟨hcur, hcnt, hprev⟩ := hg hgold
      refine ⟨hcur, hcnt, ?_⟩
      by_contra hlt
      push_neg at hlt
      exact h2 ⟨hprev, hlt⟩
    · obtain ⟨hcur, hcnt, hprev⟩ := hd hdeath
      refine ⟨hcur, hcnt, ?_⟩
      by_contra hlt
      push_neg at hlt
      exact h1 ⟨hprev, hlt⟩

lemma traceStates_inv (dvals evals : List ℚ) :
    ∀ i, i < (traceStates dvals evals).length →
      StateInv ((traceStates dvals evals).getD i sigInit)
        (dvals.getD i 0, evals.getD i 0) := by
  intro i
  induction i with
  | zero =>
    intro h
    rw [traceStates_getD_zero]
    exact ⟨fun h => by simp [sigInit] at h, fun h => by simp [sigInit] at h,
      fun _ => rfl⟩
  | succ i ih =>
    intro h
    rw [traceStates_getD_succ dvals evals i h]
    exact sigStep_inv _ _ _ (ih (by omega))

lemma traceStates_length (dvals evals : List ℚ) (h : dvals.length = evals.length) :
    (traceStates dvals evals).length = dvals.length := by
  match dvals, evals with
  | [], [] => rfl
  | [], e :: es => simp at h
  | d :: ds, [] => simp at h
  | d :: ds, e :: es =>
    have h2 : ds.length = es.length := by simpa using h
    simp [traceStates, sigStates2_length]
    omega

lemma map_value_zip_state : ∀ (l₁ : List DDDataPoint) (l₂ : List SigState),
    l₁.length = l₂.length →
    ((l₁.zip l₂).map (fun pe => DDDataPoint.mk pe.1.datatime (pe.2.current : ℚ))).map
        (·.value)
      = l₂.map (fun s => (s.current : ℚ)) := by
  intro l₁
  induction l₁ with
  | nil =>
    intro l₂ h
    cases l₂ with
    | nil => rfl
    | cons b l₂ => simp at h
  | cons a l ih =>
    intro l₂ h
    cases l₂ with
    | nil => simp at h
    | cons b l₂ =>
      simp only [List.zip_cons_cons, List.map_cons]
      rw [ih l₂ (by simpa using h)]

lemma sigVals_eq (dif dea : List DDDataPoint) (hlen : dif.length = dea.length) :
    sigVals dif dea
      = (traceStates (dif.map (·.value)) (dea.map (·.value))).map
          (fun s => (s.current : ℚ)) := by
  unfold sigVals signal_line
  cases dif with
  | nil => cases dea <;> simp [traceStates]
  | cons d ds =>
    cases dea with
    | nil => simp at hlen
    | cons e es =>
      rw [if_neg (by simp)]
      apply map_value_zip_state
      have h2 : ds.length = es.length := by simpa using hlen
      rw [traceStates_length _ _ (by simp [h2])]
      simp

lemma sigVals_length (dif dea : List DDDataPoint) (hlen : dif.length = dea.length) :
    (sigVals dif dea).length = dif.length := by
  rw [sigVals_eq dif dea hlen, List.length_map,
    traceStates_length _ _ (by simp [hlen]), List.length_map]

lemma sigVals_getD (dif dea : List DDDataPoint) (hlen : dif.length = dea.length)
    (i : ℕ) (h : i < dif.length) :
    (sigVals dif dea).getD i 0
      = (((traceStates (dif.map (·.value)) (dea.map (·.value))).getD i sigInit).current : ℚ) := by
  have hlt : i < (traceStates (dif.map (·.value)) (dea.map (·.value))).length := by
    rw [traceStates_length _ _ (by simp [hlen]), List.length_map]
    exact h
  rw [sigVals_eq dif dea hlen, List.getD_eq_getElem?_getD, List.getElem?_map,
    List.getElem?_eq_getElem hlt, List.getD_eq_getElem?_getD,
    List.getElem?_eq_getElem hlt]
  rfl

lemma goldenVal_intCast (z : ℤ) :
    goldenVal ((z : ℚ)) ↔ (100000 ≤ z ∧ z < 200000) := by
  unfold goldenVal
  constructor
  · rintro ⟨h1, h2⟩
    exact ⟨by exact_mod_cast h1, by exact_mod_cast h2⟩
  · rintro ⟨h1, h2⟩
    exact ⟨by exact_mod_cast h1, by exact_mod_cast h2⟩

lemma deathVal_intCast (z : ℤ) : deathVal ((z : ℚ)) ↔ 200000 ≤ z := by
  unfold deathVal
  constructor
  · intro h
    exact_mod_cast h
  · intro h
    exact_mod_cast h

lemma trace_golden_start (dv ev : List ℚ) (j : ℕ)
    (h : j + 1 < (traceStates dv ev).length)
    (hgold : goldenVal ((((traceStates dv ev).getD (j + 1) sigInit).current : ℚ)))
    (hprev : ¬ goldenVal ((((traceStates dv ev).getD j sigInit).current : ℚ))) :
    ((((traceStates dv ev).getD (j + 1) sigInit).current : ℚ)) = 100000 := by
  have hrec := traceStates_getD_succ dv ev j h
  have hinv := traceStates_inv dv ev j (by omega)
  rw [goldenVal_intCast] at hgold hprev
  rw [hrec] at hgold ⊢
  unfold sigStep at hgold ⊢
  split_ifs at hgold ⊢ with h1 h2 h3 h4
  · norm_num
  · simp at hgold
  · obtain ⟨hc, hcnt, _⟩ := hinv.1 h3.1
    simp only [] at hgold
    exact absurd (by constructor <;> omega) hprev
  · obtain ⟨hc, hcnt, _⟩ := hinv.2.1 h4.1
    simp only [] at hgold
    omega
  · exact absurd hgold hprev

lemma trace_death_start (dv ev : List ℚ) (j : ℕ)
    (h : j + 1 < (traceStates dv ev).length)
    (hdeath : deathVal ((((traceStates dv ev).getD (j + 1) sigInit).current : ℚ)))
    (hprev : ¬ deathVal ((((traceStates dv ev).getD j sigInit).current : ℚ))) :
    ((((traceStates dv ev).getD (j + 1) sigInit).current : ℚ)) = 200000 := by
  have hrec := traceStates_getD_succ dv ev j h
  have hinv := traceStates_inv dv ev j (by omega)
  rw [deathVal_intCast] at hdeath hprev
  rw [hrec] at hdeath ⊢
  unfold sigStep at hdeath ⊢
  split_ifs at hdeath ⊢ with h1 h2 h3 h4
  · simp at hdeath
  · norm_num
  · obtain ⟨hc, hcnt, _⟩ := hinv.1 h3.1
    simp only [] at hdeath
    rw [hc] at hprev
    have hval : (100000 : ℤ)
        + (((traceStates dv ev).getD j sigInit).counter + 1) = 200000 := by
      omega
    have hcast := congrArg (fun z : ℤ => (z : ℚ)) hval
    exact hcast.trans (by norm_num)
  · obtain ⟨hc, hcnt, _⟩ := hinv.2.1 h4.1
    exfalso
    omega
  · exact absurd hdeath hprev

lemma trace_golden_cont (dv ev : List ℚ) (j : ℕ)
    (h : j + 1 < (traceStates dv ev).length)
    (hgold : goldenVal ((((traceStates dv ev).getD j sigInit).current : ℚ)))
    (hd : ev.getD j 0 < dv.getD j 0)
    (hcur : ev.getD (j + 1) 0 < dv.getD (j + 1) 0) :
    ((((traceStates dv ev).getD (j + 1) sigInit).current : ℚ))
      = ((((traceStates dv ev).getD j sigInit).current : ℚ)) + 1 := by
  have hrec := traceStates_getD_succ dv ev j h
  have hinv := traceStates_inv dv ev j (by omega)
  rw [goldenVal_intCast] at hgold
  have hst : ((traceStates dv ev).getD j sigInit).stype = SigType.golden := by
    rcases hstype : ((traceStates dv ev).getD j sigInit).stype with _ | _ | _
    · have h0 := hinv.2.2 hstype
      exfalso
      omega
    · rfl
    · obtain ⟨hc, hcnt, _⟩ := hinv.2.1 hstype
      exfalso
      omega
  rw [hrec]
  unfold sigStep
  split_ifs with h1 h2 h3 h4
  · exact absurd h1.1 (not_le.mpr hd)
  · exact absurd h2.2 (asymm hcur)
  · obtain ⟨hc, _, _⟩ := hinv.1 hst
    rw [hc]
    push_cast
    ring
  · rw [hst] at h4
    simp at h4
  · exact absurd ⟨hst, hcur⟩ h3

lemma trace_death_cont (dv ev : List ℚ) (j : ℕ)
    (h : j + 1 < (traceStates dv ev).length)
    (hdeath : deathVal ((((traceStates dv ev).getD j sigInit).current : ℚ)))
    (hd : dv.getD j 0 < ev.getD j 0)
    (hcur : dv.getD (j + 1) 0 < ev.getD (j + 1) 0) :
    ((((traceStates dv ev).getD (j + 1) sigInit).current : ℚ))
      = ((((traceStates dv ev).getD j sigInit).current : ℚ)) + 1 := by
  have hrec := traceStates_getD_succ dv ev j h
  have hinv := traceStates_inv dv ev j (by omega)
  rw [deathVal_intCast] at hdeath
  have hst : ((traceStates dv ev).getD j sigInit).stype = SigType.death := by
    rcases hstype : ((traceStates dv ev).getD j sigInit).stype with _ | _ | _
    · have h0 := hinv.2.2 hstype
      exfalso
      omega
    · obtain ⟨hc, hcnt, hge⟩ := hinv.1 hstype
      exact absurd hge (not_le.mpr hd)
    · rfl
  rw [hrec]
  unfold sigStep
  split_ifs with h1 h2 h3 h4
  · exact absurd h1.2 (asymm hcur)
  · exact absurd h2.1 (not_le.mpr hd)
  · rw [hst] at h3
    simp at h3
  · obtain ⟨hc, _, _⟩ := hinv.2.1 hst
    rw [hc]
    push_cast
    ring
  · exact absurd ⟨hst, hcur⟩ h4

lemma trace_hold (dv ev : List ℚ) (j : ℕ)
    (h : j + 1 < (traceStates dv ev).length)
    (hcur : dv.getD (j + 1) 0 = ev.getD (j + 1) 0) :
    (traceStates dv ev).getD (j + 1) sigInit
      = (traceStates dv ev).getD j sigInit := by
  rw [traceStates_getD_succ dv ev j h]
  unfold sigStep
  split_ifs with h1 h2 h3 h4
  · have hgt : ev.getD (j + 1) 0 < dv.getD (j + 1) 0 := h1.2
    rw [hcur] at hgt
    exact absurd hgt (lt_irrefl _)
  · have hlt : dv.getD (j + 1) 0 < ev.getD (j + 1) 0 := h2.2
    rw [hcur] at hlt
    exact absurd hlt (lt_irrefl _)
  · have hgt : ev.getD (j + 1) 0 < dv.getD (j + 1) 0 := h3.2
    rw [hcur] at hgt
    exact absurd hgt (lt_irrefl _)
  · have hlt : dv.getD (j + 1) 0 < ev.getD (j + 1) 0 := h4.2
    rw [hcur] at hlt
    exact absurd hlt (lt_irrefl _)
  · rfl

/-- C3 exactly as stated, in local form over the emitted values: a maximal
run of consecutive Golden-band bars starts at `100000` and increases by
exactly `1` each bar; analogously for Death runs from `200000`. -/
def C3RunClaim (dif dea : List DDDataPoint) : Prop :=
  (∀ i : ℕ, i < (sigVals dif dea).length →
    goldenVal ((sigVals dif dea).getD i 0) →
    (i = 0 ∨ ¬ goldenVal ((sigVals dif dea).getD (i - 1) 0)) →
    (sigVals dif dea).getD i 0 = 100000) ∧
  (∀ i : ℕ, i + 1 < (sigVals dif dea).length →
    goldenVal ((sigVals dif dea).getD i 0) →
    goldenVal ((sigVals dif dea).getD (i + 1) 0) →
    (sigVals dif dea).getD (i + 1) 0 = (sigVals dif dea).getD i 0 + 1) ∧
  (∀ i : ℕ, i < (sigVals dif dea).length →
    deathVal ((sigVals dif dea).getD i 0) →
    (i = 0 ∨ ¬ deathVal ((sigVals dif dea).getD (i - 1) 0)) →
    (sigVals dif dea).getD i 0 = 200000) ∧
  (∀ i : ℕ, i + 1 < (sigVals dif dea).length →
    deathVal ((sigVals dif dea).getD i 0) →
    deathVal ((sigVals dif dea).getD (i + 1) 0) →
    (sigVals dif dea).getD (i + 1) 0 = (sigVals dif dea).getD i 0 + 1)

/-- The claim C3 quantified over all equal-length DIF/DEA pairs. -/
def signalClaimProp : Prop :=
  ∀ dif dea : List DDDataPoint, dif.length = dea.length → C3RunClaim dif dea

/-- DIF input for the C3 counterexample: values `0, 1, 1`. -/
def wDif : List DDDataPoint := [⟨0, 0⟩, ⟨1, 1⟩, ⟨2, 1⟩]

/-- DEA input for the C3 counterexample: values `1, 0, 1`. -/
def wDea : List DDDataPoint := [⟨0, 1⟩, ⟨1, 0⟩, ⟨2, 1⟩]

/-- C3 as stated is false: with DIF `0,1,1` and DEA `1,0,1`, bar 1 is a
golden cross (signal `100000`) and bar 2 has `DIF = DEA`, so the loop holds
the previous signal: both bars sit in the Golden band with signal `100000`,
not `100000, 100001`. -/
theorem signal_line_run_cex : ¬ signalClaimProp := by
  intro h
  have hv : sigVals wDif wDea = [0, 100000, 100000] := by
    norm_num [sigVals, signal_line, wDif, wDea, traceStates, sigStates2,
      sigStep, sigInit]
  have h2 := (h wDif wDea rfl).2.1 1 (by rw [hv]; norm_num)
    (by rw [hv]; norm_num [goldenVal]) (by rw [hv]; norm_num [goldenVal])
  rw [hv] at h2
  norm_num at h2

/-- C3 (amended): runs of bars on which the cross condition actively holds
behave as claimed — a Golden-band bar entered from a non-Golden bar reads
exactly `100000`; a Golden-band bar followed by a bar with `DIF > DEA` on
both bars increments the signal by exactly `1`; a bar with `DIF = DEA`
holds the previous signal unchanged; symmetrically for Death runs from
`200000`. -/
def SignalRunAmended (dif dea : List DDDataPoint) : Prop :=
  (∀ i : ℕ, i < (sigVals dif dea).length →
    goldenVal ((sigVals dif dea).getD i 0) →
    (i = 0 ∨ ¬ goldenVal ((sigVals dif dea).getD (i - 1) 0)) →
    (sigVals dif dea).getD i 0 = 100000) ∧
  (∀ i : ℕ, i + 1 < (sigVals dif dea).length →
    goldenVal ((sigVals dif dea).getD i 0) →
    (dea.map (·.value)).getD i 0 < (dif.map (·.value)).getD i 0 →
    (dea.map (·.value)).getD (i + 1) 0 < (dif.map (·.value)).getD (i + 1) 0 →
    (sigVals dif dea).getD (i + 1) 0 = (sigVals dif dea).getD i 0 + 1) ∧
  (∀ i : ℕ, i + 1 < (sigVals dif dea).length →
    (dif.map (·.value)).getD (i + 1) 0 = (dea.map (·.value)).getD (i + 1) 0 →
    (sigVals dif dea).getD (i + 1) 0 = (sigVals dif dea).getD i 0) ∧
  (∀ i : ℕ, i < (sigVals dif dea).length →
    deathVal ((sigVals dif dea).getD i 0) →
    (i = 0 ∨ ¬ deathVal ((sigVals dif dea).getD (i - 1) 0)) →
    (sigVals dif dea).getD i 0 = 200000) ∧
  (∀ i : ℕ, i + 1 < (sigVals dif dea).length →
    deathVal ((sigVals dif dea).getD i 0) →
    (dif.map (·.value)).getD i 0 < (dea.map (·.value)).getD i 0 →
    (dif.map (·.value)).getD (i + 1) 0 < (dea.map (·.value)).getD (i + 1) 0 →
    (sigVals dif dea).getD (i + 1) 0 = (sigVals dif dea).getD i 0 + 1)

/-- C3 (amended), proved for every equal-length DIF/DEA pair. -/
theorem signal_line_run_structure (dif dea : List DDDataPoint)
    (hlen : dif.length = dea.length) : SignalRunAmended dif dea := by
  have hlenv := sigVals_length dif dea hlen
  have hlenT : (traceStates (dif.map (·.value)) (dea.map (·.value))).length
      = dif.length := by
    rw [traceStates_length _ _ (by simp [hlen]), List.length_map]
  refine ⟨?_, ?_, ?_, ?_, ?_⟩
  · intro i hi hgold hstart
    have hi' : i < dif.length := by rw [hlenv] at hi; exact hi
    cases i with
    | zero =>
      rw [sigVals_getD dif dea hlen 0 hi', traceStates_getD_zero] at hgold
      exact absurd hgold (by norm_num [goldenVal, sigInit])
    | succ j =>
      have hj : j < dif.length := by omega
      rw [sigVals_getD dif dea hlen (j + 1) hi']
      rw [sigVals_getD dif dea hlen (j + 1) hi'] at hgold
      have hstart2 : ¬ goldenVal ((sigVals dif dea).getD j 0) := by
        rcases hstart with h0 | hg
        · exact absurd h0 (Nat.succ_ne_zero j)
        · exact hg
      rw [sigVals_getD dif dea hlen j hj] at hstart2
      exact trace_golden_start _ _ j (by rw [hlenT]; exact hi') hgold hstart2
  · intro i hi hgold hd hcur
    have hi' : i + 1 < dif.length := by rw [hlenv] at hi; exact hi
    rw [sigVals_getD dif dea hlen (i + 1) hi',
      sigVals_getD dif dea hlen i (by omega)]
    rw [sigVals_getD dif dea hlen i (by omega)] at hgold
    exact trace_golden_cont _ _ i (by rw [hlenT]; exact hi') hgold hd hcur
  · intro i hi hcur
    have hi' : i + 1 < dif.length := by rw [hlenv] at hi; exact hi
    rw [sigVals_getD dif dea hlen (i + 1) hi',
      sigVals_getD dif dea hlen i (by omega)]
    rw [trace_hold _ _ i (by rw [hlenT]; exact hi') hcur]
  · intro i hi hdeath hstart
    have hi' : i < dif.length := by rw [hlenv] at hi; exact hi
    cases i with
    | zero =>
      rw [sigVals_getD dif dea hlen 0 hi', traceStates_getD_zero] at hdeath
      exact absurd hdeath (by norm_num [deathVal, sigInit])
    | succ j =>
      have hj : j < dif.length := by omega
      rw [sigVals_getD dif dea hlen (j + 1) hi']
      rw [sigVals_getD dif dea hlen (j + 1) hi'] at hdeath
      have hstart2 : ¬ deathVal ((sigVals dif dea).getD j 0) := by
        rcases hstart with h0 | hg
        · exact absurd h0 (Nat.succ_ne_zero j)
        · exact hg
      rw [sigVals_getD dif dea hlen j hj] at hstart2
      exact trace_death_start _ _ j (by rw [hlenT]; exact hi') hdeath hstart2
  · intro i hi hdeath hd hcur
    have hi' : i + 1 < dif.length := by rw [hlenv] at hi; exact hi
    rw [sigVals_getD dif dea hlen (i + 1) hi',
      sigVals_getD dif dea hlen i (by omega)]
    rw [sigVals_getD dif dea hlen i (by omega)] at hdeath
    exact trace_death_cont _ _ i (by rw [hlenT]; exact hi') hdeath hd hcur

/-- DIF input for the C3 witness: values `0, 1, 2`. -/
def wDif2 : List DDDataPoint := [⟨0, 0⟩, ⟨1, 1⟩, ⟨2, 2⟩]

/-- DEA input for the C3 witness: values `1, 0, 0`. -/
def wDea2 : List DDDataPoint := [⟨0, 1⟩, ⟨1, 0⟩, ⟨2, 0⟩]

theorem signal_line_run_structure_witness :
    wDif2.length = wDea2.length ∧ SignalRunAmended wDif2 wDea2 :=
  ⟨rfl, signal_line_run_structure wDif2 wDea2 rfl⟩

/-- `DDService._dif`: fast EMA minus slow EMA of the closes, one point per
bar; empty when the series is shorter than the slow period. -/
def _dif (ds : List CommonStockDataset) (fast slow : ℕ) : List DDDataPoint :=
  if ds.isEmpty ∨ ds.length < slow then []
  else
    (List.range ds.length).map (fun i =>
      ⟨(ds.map (·.datatime)).getD i 0,
       (ewma (2 / ((fast : ℚ) + 1)) (ds.map (·.close))).getD i 0
         - (ewma (2 / ((slow : ℚ) + 1)) (ds.map (·.close))).getD i 0⟩)

/-- `DDService._dea`: EMA of the DIF values with the signal span; empty when
the series is shorter than `slow + signal`. -/
def _dea (ds : List CommonStockDataset) (fast slow signal : ℕ) :
    List DDDataPoint :=
  if ds.isEmpty ∨ ds.length < slow + signal then []
  else
    let dif := _dif ds fast slow
    if dif.isEmpty then []
    else
      (List.range dif.length).map (fun i =>
        ⟨(dif.map (·.datatime)).getD i 0,
         (ewma (2 / ((signal : ℚ) + 1)) (dif.map (·.value))).getD i 0⟩)

/-- `DDService._macd`: histogram `(DIF - DEA) * 2` pointwise. -/
def _macd (ds : List CommonStockDataset) (fast slow signal : ℕ) :
    List DDDataPoint :=
  if ds.isEmpty ∨ ds.length < slow + signal then []
  else
    let dif := _dif ds fast slow
    let dea := _dea ds fast slow signal
    if dif.isEmpty ∨ dea.isEmpty then []
    else
      (List.range dif.length).map (fun i =>
        ⟨(dif.map (·.datatime)).getD i 0,
         ((dif.map (·.value)).getD i 0 - (dea.map (·.value)).getD i 0) * 2⟩)

/-- `RegimeService.calculate_macd` with the default `DDService` periods
`12/26/9`: decode the cross signal into direction and duration, add the
histogram strength, and attach the weight registered for `"macd"` at call
time (`1.0` if unregistered). -/
noncomputable def calculate_macd (reg : Registry) (ds : List CommonStockDataset)
    (period : ℕ) : List FactorResult :=
  let dea := _dea ds 12 26 9
  let dif := _dif ds 12 26
  let macd := _macd ds 12 26 9
  let signal := signal_line dif dea
  (List.range signal.length).map (fun i =>
    let v := (signal.map (·.value)).getD i 0
    let trend_direction : ℚ := if v ≥ 200000 then -1 else if v ≥ 100000 then 1 else 0
    let trend_duration : ℚ :=
      if v ≥ 200000 then v - 200000 else if v ≥ 100000 then v - 100000 else 0
    let macd_strength : ℚ :=
      if i < macd.length then |(macd.map (·.value)).getD i 0| else 0
    let time_factor := min (trend_duration / (period : ℚ)) 1
    let time_decay := 1 / (1 + (1 / 10) * trend_duration)
    let strength_factor := min (macd_strength / 10) 1
    let score := trend_direction * (1 / 2 * time_factor * time_decay
      + 1 / 2 * strength_factor)
    ⟨"macd", (signal.map (·.datatime)).getD i 0, ((score : ℚ) : ℝ),
     weightOf reg "macd"⟩)

/-- C4: every `FactorResult` produced by `calculate_macd` carries the weight
registered for `"macd"` at production time (default `1.0`); registering a
different weight afterwards changes the registry lookup but not the weight
stored in the already-produced results, which is what `combine_factors`
reads. -/
theorem macd_weight_captured (reg : Registry) (ds : List CommonStockDataset)
    (period : ℕ) (w' : ℝ) (hdiff : w' ≠ weightOf reg "macd") :
    (∀ fr ∈ calculate_macd reg ds period, fr.weight = weightOf reg "macd") ∧
    weightOf (register_factor reg "macd" w') "macd" = w' ∧
    (∀ fr ∈ calculate_macd reg ds period,
      fr.weight ≠ weightOf (register_factor reg "macd" w') "macd") := by
  have h1 : ∀ fr ∈ calculate_macd reg ds period,
      fr.weight = weightOf reg "macd" := by
    intro fr hfr
    unfold calculate_macd at hfr
    obtain ⟨i, _, rfl⟩ := List.mem_map.1 hfr
    rfl
  have h2 : weightOf (register_factor reg "macd" w') "macd" = w' := by
    unfold weightOf register_factor
    simp [List.lookup]
  refine ⟨h1, h2, fun fr hfr => ?_⟩
  rw [h1 fr hfr, h2]
  exact Ne.symm hdiff

theorem macd_weight_captured_witness :
    ((2 : ℝ) ≠ weightOf ([] : Registry) "macd") ∧
    ((∀ fr ∈ calculate_macd ([] : Registry) [] 20,
        fr.weight = weightOf ([] : Registry) "macd") ∧
      weightOf (register_factor ([] : Registry) "macd" 2) "macd" = 2 ∧
      (∀ fr ∈ calculate_macd ([] : Registry) [] 20,
        fr.weight ≠ weightOf (register_factor ([] : Registry) "macd" 2) "macd")) :=
  ⟨by norm_num [weightOf, List.lookup],
    macd_weight_captured ([] : Registry) [] 20 2
      (by norm_num [weightOf, List.lookup])⟩

/-- The labelled correlation matrix returned by
`calculate_factor_correlation` (`pd.DataFrame.corr()`): column names and
entries; a `NaN` entry (zero variance on either side) is `none`. -/
structure CorrMatrix where
  names : List String
  entries : List (List (Option ℝ))

/-- The empty DataFrame. -/
def emptyCorr : CorrMatrix := ⟨[], []⟩

/-- Pearson correlation of two equal-length series, `none` for the `NaN`
case of a zero-variance side (pandas `corr`). -/
noncomputable def pearson (x y : List ℝ) : Option ℝ :=
  if ((x.map (fun a => (a - mean x) ^ 2)).sum) = 0 ∨
      ((y.map (fun a => (a - mean y) ^ 2)).sum) = 0 then none
  else
    some ((((x.zip y).map (fun p => (p.1 - mean x) * (p.2 - mean y))).sum)
      / Real.sqrt (((x.map (fun a => (a - mean x) ^ 2)).sum)
          * ((y.map (fun a => (a - mean y) ^ 2)).sum)))

/-- The first item's factor name of a factor-result list (its dict key). -/
def headName (l : List FactorResult) : String :=
  (l.head?.map (·.factor_name)).getD ""

/-- One `factor_dict[name] = values` assignment: Python dict update keeps
the original position of an existing key and appends a new one. -/
noncomputable def upsert (m : List (String × List ℝ)) (k : String)
    (v : List ℝ) : List (String × List ℝ) :=
  if m.any (fun p => p.1 = k) then
    m.map (fun p => if p.1 = k then (k, v) else p)
  else m ++ [(k, v)]

/-- The `factor_dict` built by `calculate_factor_correlation`: empty input
lists are skipped (`continue`), the rest keyed by their first item's
`factor_name`. -/
noncomputable def factorColumns (frl : List (List FactorResult)) :
    List (String × List ℝ) :=
  frl.foldl (fun m l =>
    if l.isEmpty then m
    else upsert m (headName l) (l.map (·.value))) []

/-- `RegimeService.calculate_factor_correlation`: empty DataFrame for fewer
than two input lists; otherwise `pd.DataFrame(factor_dict)` (which raises
`ValueError`, here `none`, when the collected columns have unequal
lengths) followed by `df.corr()`. -/
noncomputable def calculate_factor_correlation
    (frl : List (List FactorResult)) : Option CorrMatrix :=
  if frl.isEmpty ∨ frl.length < 2 then some emptyCorr
  else if ∀ c ∈ factorColumns frl, ∀ c2 ∈ factorColumns frl,
      c.2.length = c2.2.length then
    some ⟨(factorColumns frl).map (·.1),
      (factorColumns frl).map (fun ci =>
        (factorColumns frl).map (fun cj => pearson ci.2 cj.2))⟩
  else none

/-- C9 exactly as stated: empty result when fewer than 2 lists are supplied
or some supplied list is empty; pairwise Pearson matrix of the supplied
series otherwise. -/
def corrClaimProp : Prop :=
  (∀ frl : List (List FactorResult),
    (frl.length < 2 ∨ ∃ l ∈ frl, l = []) →
    calculate_factor_correlation frl = some emptyCorr) ∧
  (∀ frl : List (List FactorResult), 2 ≤ frl.length → (∀ l ∈ frl, l ≠ []) →
    calculate_factor_correlation frl
      = some ⟨frl.map headName,
          frl.map (fun li => frl.map (fun lj =>
            pearson (li.map (·.value)) (lj.map (·.value))))⟩)

/-- C9 as stated is false: `[[r], []]` has two supplied lists, one empty,
yet the code skips the empty list and returns the 1×1 matrix of the
remaining factor, not the empty result. -/
theorem factor_correlation_cex : ¬ corrClaimProp := by
  intro h
  have hcols : factorColumns [[(⟨"a", 0, 0, 1⟩ : FactorResult)], []]
      = [("a", [(0 : ℝ)])] := by
    simp [factorColumns, upsert, headName]
  have heval : calculate_factor_correlation [[(⟨"a", 0, 0, 1⟩ : FactorResult)], []]
      = some ⟨["a"], [[pearson [(0 : ℝ)] [(0 : ℝ)]]]⟩ := by
    rw [calculate_factor_correlation, if_neg (by simp), hcols,
      if_pos (by simp)]
    simp
  have h2 := h.1 [[(⟨"a", 0, 0, 1⟩ : FactorResult)], []]
    (Or.inr ⟨[], by simp, rfl⟩)
  rw [heval] at h2
  simp [emptyCorr] at h2

lemma factorColumns_aux (frl : List (List FactorResult)) :
    ∀ acc : List (String × List ℝ),
      (∀ l ∈ frl, l ≠ []) →
      (acc.map (·.1) ++ frl.map headName).Nodup →
      frl.foldl (fun m l =>
        if l.isEmpty then m
        else upsert m (headName l) (l.map (·.value))) acc
        = acc ++ frl.map (fun l => (headName l, l.map (·.value))) := by
  induction frl with
  | nil =>
    intro acc _ _
    simp
  | cons l rest ih =>
    intro acc hne hnodup
    have hl : l.isEmpty = false := by
      simpa [List.isEmpty_iff] using hne l (List.mem_cons_self _ _)
    have hnotin : headName l ∉ acc.map (·.1) := by
      intro hmem
      rw [List.nodup_append] at hnodup
      exact hnodup.2.2 hmem (by
        rw [List.map_cons]
        exact List.mem_cons_self _ _)
    have hupsert : upsert acc (headName l) (l.map (·.value))
        = acc ++ [(headName l, l.map (·.value))] := by
      unfold upsert
      rw [if_neg ?hany]
      case hany =>
        intro hany
        rw [List.any_eq_true] at hany
        obtain ⟨p, hp, hpe⟩ := hany
        exact hnotin (List.mem_map.2 ⟨p, hp, by simpa using hpe⟩)
    rw [List.foldl_cons, hl]
    simp only [Bool.false_eq_true, if_false]
    rw [hupsert,
      ih (acc ++ [(headName l, l.map (·.value))])
        (fun x hx => hne x (List.mem_cons_of_mem _ hx))
        (by simpa [List.append_assoc] using hnodup)]
    simp [List.append_assoc]

lemma factorColumns_all_empty : ∀ (frl : List (List FactorResult)),
    (∀ l ∈ frl, l = []) →
    ∀ acc : List (String × List ℝ),
      frl.foldl (fun m l =>
        if l.isEmpty then m
        else upsert m (headName l) (l.map (·.value))) acc = acc := by
  intro frl
  induction frl with
  | nil =>
    intro _ acc
    rfl
  | cons l rest ih =>
    intro h acc
    have hl : l = [] := h l (List.mem_cons_self _ _)
    subst hl
    rw [List.foldl_cons]
    exact ih (fun x hx => h x (List.mem_cons_of_mem _ hx)) acc

/-- C9 (amended): fewer than two supplied lists give the empty result; an
empty list among the supplied inputs is skipped (`continue`) and is not by
itself grounds for an empty result, though when every supplied list is
empty the collected DataFrame is empty and the empty matrix is returned;
with at least two supplied lists, all non-empty, with pairwise distinct
leading factor names and equal lengths, the result is the pairwise Pearson
correlation matrix of the supplied series in order.  (Mixed lengths raise
in pandas, modelled as `none`.) -/
theorem factor_correlation_amended (frl : List (List FactorResult)) :
    (frl.length < 2 → calculate_factor_correlation frl = some emptyCorr) ∧
    (2 ≤ frl.length → (∀ l ∈ frl, l = []) →
      calculate_factor_correlation frl = some emptyCorr) ∧
    (2 ≤ frl.length → (∀ l ∈ frl, l ≠ []) →
      (frl.map headName).Nodup →
      (∀ l₁ ∈ frl, ∀ l₂ ∈ frl, l₁.length = l₂.length) →
      calculate_factor_correlation frl
        = some ⟨frl.map headName,
            frl.map (fun li => frl.map (fun lj =>
              pearson (li.map (·.value)) (lj.map (·.value))))⟩) := by
  refine ⟨?_, ?_, ?_⟩
  · intro hlt
    rw [calculate_factor_correlation, if_pos (Or.inr hlt)]
  · intro h2 hall
    have hguard : ¬(frl.isEmpty = true ∨ frl.length < 2) := by
      rintro (h | h)
      · rw [List.isEmpty_iff] at h
        rw [h] at h2
        simp at h2
      · omega
    have hcols : factorColumns frl = [] := by
      unfold factorColumns
      exact factorColumns_all_empty frl hall []
    rw [calculate_factor_correlation, if_neg hguard, hcols,
      if_pos (by simp)]
    rfl
  · intro h2 hne hnodup hlens
    have hcols : factorColumns frl
        = frl.map (fun l => (headName l, l.map (·.value))) := by
      unfold factorColumns
      rw [factorColumns_aux frl [] hne (by simpa using hnodup)]
      simp
    have hguard : ¬(frl.isEmpty = true ∨ frl.length < 2) := by
      rintro (h | h)
      · rw [List.isEmpty_iff] at h
        rw [h] at h2
        simp at h2
      · omega
    rw [calculate_factor_correlation, if_neg hguard, hcols, if_pos ?cond]
    case cond =>
      intro c hc c2 hc2
      obtain ⟨l1, hl1, rfl⟩ := List.mem_map.1 hc
      obtain ⟨l2, hl2, rfl⟩ := List.mem_map.1 hc2
      show (l1.map (·.value)).length = (l2.map (·.value)).length
      rw [List.length_map, List.length_map]
      exact hlens l1 hl1 l2 hl2
    refine congrArg some ?_
    have hnames : (frl.map (fun l => (headName l, l.map (·.value)))).map (·.1)
        = frl.map headName := by
      rw [List.map_map]
      rfl
    have hentries : (frl.map (fun l => (headName l, l.map (·.value)))).map
        (fun ci => (frl.map (fun l => (headName l, l.map (·.value)))).map
          (fun cj => pearson ci.2 cj.2))
        = frl.map (fun li => frl.map (fun lj =>
            pearson (li.map (·.value)) (lj.map (·.value)))) := by
      rw [List.map_map]
      refine List.map_congr_left (fun l1 _ => ?_)
      simp only [Function.comp_apply]
      rw [List.map_map]
      rfl
    rw [hnames, hentries]

/-- Concrete two-factor input for the C9 witness. -/
noncomputable def wCorr : List (List FactorResult) :=
  [[⟨"a", 0, 0, 1⟩], [⟨"b", 0, 1, 1⟩]]

theorem factor_correlation_amended_witness :
    (2 ≤ wCorr.length ∧ (∀ l ∈ wCorr, l ≠ []) ∧
      (wCorr.map headName).Nodup ∧
      (∀ l₁ ∈ wCorr, ∀ l₂ ∈ wCorr, l₁.length = l₂.length)) ∧
    calculate_factor_correlation wCorr
      = some ⟨wCorr.map headName,
          wCorr.map (fun li => wCorr.map (fun lj =>
            pearson (li.map (·.value)) (lj.map (·.value))))⟩ :=
  ⟨⟨by norm_num [wCorr],
    by
      intro l hl
      simp only [wCorr, List.mem_cons, List.not_mem_nil, or_false] at hl
      rcases hl with rfl | rfl <;> simp,
    by simp [wCorr, headName],
    by
      intro l₁ h₁ l₂ h₂
      simp only [wCorr, List.mem_cons, List.not_mem_nil, or_false] at h₁ h₂
      rcases h₁ with rfl | rfl <;> rcases h₂ with rfl | rfl <;> rfl⟩,
    (factor_correlation_amended wCorr).2.2 (by norm_num [wCorr])
      (by
        intro l hl
        simp only [wCorr, List.mem_cons, List.not_mem_nil, or_false] at hl
        rcases hl with rfl | rfl <;> simp)
      (by simp [wCorr, headName])
      (by
        intro l₁ h₁ l₂ h₂
        simp only [wCorr, List.mem_cons, List.not_mem_nil, or_false] at h₁ h₂
        rcases h₁ with rfl | rfl <;> rcases h₂ with rfl | rfl <;> rfl)⟩

end Regime
